import Mathlib

set_option maxRecDepth 8192

namespace KV

/-- Characters removed by Python str.strip with no argument: exactly the code
points whose str.isspace is true in CPython, namely 09-0d, 1c-1f, 20, 85, a0,
1680, 2000-200a, 2028, 2029, 202f, 205f and 3000. -/
def isPyWs (c : Char) : Bool :=
  decide ((0x09 ≤ c.toNat ∧ c.toNat ≤ 0x0d) ∨ (0x1c ≤ c.toNat ∧ c.toNat ≤ 0x20) ∨
    c.toNat = 0x85 ∨ c.toNat = 0xa0 ∨ c.toNat = 0x1680 ∨
    (0x2000 ≤ c.toNat ∧ c.toNat ≤ 0x200a) ∨ c.toNat = 0x2028 ∨ c.toNat = 0x2029 ∨
    c.toNat = 0x202f ∨ c.toNat = 0x205f ∨ c.toNat = 0x3000)

/-- Character list of a string literal. -/
def strL (s : String) : List Char := s.data

/-- Python str.strip: drop whitespace from both ends (right end handled via reverse). -/
def pyStrip (s : List Char) : List Char :=
  ((s.reverse.dropWhile isPyWs).reverse).dropWhile isPyWs

/-- Python s.split of a single-space separator with a maxsplit budget (the Nat fuel).
Once the budget is exhausted the remainder, separators included, is one final field. -/
def pySplitGo : Nat → List Char → List Char → List (List Char)
  | _, acc, [] => [acc.reverse]
  | fuel, acc, c :: cs =>
    if c = ' ' then
      match fuel with
      | 0 => [acc.reverse ++ c :: cs]
      | Nat.succ m => acc.reverse :: pySplitGo m [] cs
    else pySplitGo fuel (c :: acc) cs

/-- Python line.split of a single space with maxsplit 2, as used by both loaders. -/
def pySplit2 (s : List Char) : List (List Char) := pySplitGo 2 [] s

/-- Universal-newline translation performed by Python text-mode reads:
CRLF and lone CR are both read as LF. -/
def normNl : List Char → List Char
  | [] => []
  | [c] => if c = '\r' then ['\n'] else [c]
  | c :: c2 :: cs =>
    if c = '\r' then
      if c2 = '\n' then '\n' :: normNl cs
      else '\n' :: normNl (c2 :: cs)
    else c :: normNl (c2 :: cs)

/-- Iterating a Python text file yields newline-terminated chunks; a final chunk
with no terminating newline is yielded as well when nonempty. -/
def splitLinesGo : List Char → List Char → List (List Char)
  | acc, [] => if acc = [] then [] else [acc.reverse]
  | acc, c :: cs =>
    if c = '\n' then (acc.reverse ++ ['\n']) :: splitLinesGo [] cs
    else splitLinesGo (c :: acc) cs

/-- Lines of a text file, Python iteration order. -/
def splitLines (s : List Char) : List (List Char) := splitLinesGo [] (normNl s)

/-- Boolean test that the first list is a prefix of the second (Python startswith). -/
def listPrefixOf : List Char → List Char → Bool
  | [], _ => true
  | _ :: _, [] => false
  | a :: as, b :: bs => if a = b then listPrefixOf as bs else false

/-- The token SET. -/
def SETtok : List Char := ['S', 'E', 'T']

/-- The prefix checked by kvstore.py, the token SET followed by a space. -/
def SETsp : List Char := ['S', 'E', 'T', ' ']

/-- In-memory table: insertion-ordered list of key-value pairs. This models both
the list of pairs of kv_store.py and the insertion-ordered dict of kvstore.py. -/
abbrev Table := List (List Char × List Char)

/-- Serialization of one record, the f-string SET-space-key-space-value-newline
shared by kvstore.py KeyValueStore.set and kv_store.py append_to_log. -/
def serRecord (key value : List Char) : List Char :=
  SETsp ++ key ++ ' ' :: (value ++ ['\n'])

/-- kv_store.py set_in_memory: replace the first entry holding this key in place,
otherwise append at the end. Python dict assignment in kvstore.py has the same
insertion-ordered update-or-append semantics. -/
def set_in_memory : Table → List Char → List Char → Table
  | [], key, value => [(key, value)]
  | (k, v) :: rest, key, value =>
    if k = key then (key, value) :: rest
    else (k, v) :: set_in_memory rest key value

/-- First match in scan order of an association list. -/
def scanLookup : Table → List Char → Option (List Char)
  | [], _ => none
  | (k, v) :: rest, key => if k = key then some v else scanLookup rest key

/-- kv_store.py get_from_memory: scan the reversed list, first match wins, None if absent. -/
def get_from_memory (kv : Table) (key : List Char) : Option (List Char) :=
  scanLookup kv.reverse key

/-- Python dict.get with default None on the insertion-ordered dict of kvstore.py. -/
def dictGet (kv : Table) (key : List Char) : Option (List Char) := scanLookup kv key

/-- kv_store.py append_to_log: append the serialized record to the file content. -/
def append_to_log (file key value : List Char) : List Char := file ++ serRecord key value

/-- Per-line step of kv_store.py load_data: strip the line, split on single spaces
with maxsplit 2, accept exactly three fields whose first is the token SET. -/
def parseLine (line : List Char) : Option (List Char × List Char) :=
  match pySplit2 (pyStrip line) with
  | [p0, k, v] => if p0 = SETtok then some (k, v) else none
  | _ => none

/-- Fold of kv_store.py load_data over the file lines. -/
def load_data_lines : List (List Char) → Table → Table
  | [], kv => kv
  | l :: ls, kv =>
    match parseLine l with
    | some (k, v) => load_data_lines ls (set_in_memory kv k v)
    | none => load_data_lines ls kv

/-- kv_store.py load_data on the file content, folding records into the store. -/
def load_data (content : List Char) (kv : Table) : Table :=
  load_data_lines (splitLines content) kv

/-- SET branch of the kv_store.py main loop: append_to_log runs before
set_in_memory, so a failing append (first component false) leaves both the
memory and the file untouched. -/
def mainSetStep (kv : Table) (file key value : List Char) (appendOk : Bool) :
    Bool × Table × List Char :=
  if appendOk then (true, set_in_memory kv key value, append_to_log file key value)
  else (false, kv, file)

/-- Error kinds of kvstore.py: ValueError from key validation, OSError from the append. -/
inductive KVError where
  | invalidArgument
  | ioError
deriving DecidableEq

/-- Decidable equality for results of kvGet, used to evaluate concrete runs. -/
def exceptDecEq {ε α : Type} [DecidableEq ε] [DecidableEq α] : DecidableEq (Except ε α) :=
  fun a b =>
    match a, b with
    | Except.ok x, Except.ok y =>
      if h : x = y then isTrue (by rw [h]) else isFalse (by intro hc; cases hc; exact h rfl)
    | Except.error x, Except.error y =>
      if h : x = y then isTrue (by rw [h]) else isFalse (by intro hc; cases hc; exact h rfl)
    | Except.ok _, Except.error _ => isFalse (by intro hc; cases hc)
    | Except.error _, Except.ok _ => isFalse (by intro hc; cases hc)

instance {ε α : Type} [DecidableEq ε] [DecidableEq α] : DecidableEq (Except ε α) := exceptDecEq

/-- kvstore.py key validation: key must be nonempty after strip and at most 256 chars. -/
def validate_key (key : List Char) : Bool :=
  !(pyStrip key).isEmpty && decide (key.length ≤ 256)

/-- Line loop of kvstore.py load_log: skip lines lacking the SET-space prefix after
strip; a prefixed line that does not split into three fields raises ValueError,
which aborts the replay (Bool result: replay aborted). -/
def load_log_lines : List (List Char) → Table → Table × Bool
  | [], kv => (kv, false)
  | l :: ls, kv =>
    let s := pyStrip l
    if listPrefixOf SETsp s then
      match pySplit2 s with
      | [_, k, v] => load_log_lines ls (set_in_memory kv k v)
      | _ => (kv, true)
    else load_log_lines ls kv

/-- kvstore.py load_log on the file content: the replayed table plus the aborted flag. -/
def load_log (content : List Char) : Table × Bool := load_log_lines (splitLines content) []

/-- File content after kvstore.py load_log: on abort the file is renamed away to a
bak file and replaced by an empty file; otherwise the file is only read. -/
def load_log_file (content : List Char) : List Char :=
  if (load_log content).2 then [] else content

/-- kvstore.py KeyValueStore.set: validate the key, update the dict, then append
to the log (appendOk models whether the durable append succeeds). Note the
in-memory update precedes the append in the source. Result: error if any,
then the table, then the file content. -/
def kvSet (kv : Table) (file key value : List Char) (appendOk : Bool) :
    Option KVError × Table × List Char :=
  if validate_key key then
    let kv2 := set_in_memory kv key value
    if appendOk then (none, kv2, file ++ serRecord key value)
    else (some KVError.ioError, kv2, file)
  else (some KVError.invalidArgument, kv, file)

/-- kvstore.py KeyValueStore.get: validate the key, then dict get with default None. -/
def kvGet (kv : Table) (key : List Char) : Except KVError (Option (List Char)) :=
  if validate_key key then Except.ok (dictGet kv key)
  else Except.error KVError.invalidArgument

/-- One store call of kvstore.py: a set (with its append outcome) or a get. -/
inductive Cmd where
  | setCmd (key value : List Char) (appendOk : Bool)
  | getCmd (key : List Char)

/-- State transformer of one KeyValueStore call on the pair of table and file
content. KeyValueStore.get only validates and reads, touching neither. -/
def kvStep : Cmd → Table × List Char → Table × List Char
  | Cmd.setCmd k v ok, s => (kvSet s.1 s.2 k v ok).2
  | Cmd.getCmd _, s => s

/-- Run a sequence of store calls. -/
def runCmds : List Cmd → Table × List Char → Table × List Char
  | [], s => s
  | c :: cs, s => runCmds cs (kvStep c s)

/-- Whether a command is a set. -/
def isSetCmd : Cmd → Bool
  | Cmd.setCmd _ _ _ => true
  | Cmd.getCmd _ => false

/-- Run successful SET commands through the kv_store.py main loop. -/
def runSets : List (List Char × List Char) → Table × List Char → Table × List Char
  | [], s => s
  | (k, v) :: ops, (kv, f) => runSets ops (set_in_memory kv k v, append_to_log f k v)

/-- Run successful KeyValueStore.set calls of kvstore.py. -/
def runKvStore : List (List Char × List Char) → Table × List Char → Table × List Char
  | [], s => s
  | (k, v) :: ops, (kv, f) => runKvStore ops (kvSet kv f k v true).2

/-- Fold a sequence of writes into a table by repeated update-or-append. -/
def applyWrites : List (List Char × List Char) → Table → Table
  | [], kv => kv
  | (k, v) :: ops, kv => applyWrites ops (set_in_memory kv k v)

/-- Concatenated serialization of a sequence of records. -/
def serAll : List (List Char × List Char) → List Char
  | [] => []
  | (k, v) :: ops => serRecord k v ++ serAll ops

/-- Value of the last write for a key in a sequence of key-value operations. -/
def lastWrite : List (List Char × List Char) → List Char → Option (List Char)
  | [], _ => none
  | (k, v) :: ops, key =>
    match lastWrite ops key with
    | some w => some w
    | none => if k = key then some v else none

/-- Keys of a table in order. -/
def keysOf (kv : Table) : List (List Char) := kv.map Prod.fst

/-- Uniqueness invariant: each key occurs at most once in the table. -/
def NodupKeys (kv : Table) : Prop := (keysOf kv).Nodup

/-- Keys that serialize and parse back unchanged: valid for kvstore.py validation
and free of the space and newline characters the line format reserves. -/
def GoodKey (k : List Char) : Prop :=
  pyStrip k ≠ [] ∧ k.length ≤ 256 ∧ ∀ c ∈ k, c ≠ ' ' ∧ c ≠ '\n' ∧ c ≠ '\r'

/-- Values that serialize and parse back unchanged: nonempty, free of newline
characters, and not ending in Python whitespace (strip would eat it). -/
def GoodVal (v : List Char) : Prop :=
  v ≠ [] ∧ (∀ c ∈ v, c ≠ '\n' ∧ c ≠ '\r') ∧ isPyWs (v.reverse.headD ' ') = false

instance (k : List Char) : Decidable (GoodKey k) := by unfold GoodKey; infer_instance

instance (v : List Char) : Decidable (GoodVal v) := by unfold GoodVal; infer_instance

instance (kv : Table) : Decidable (NodupKeys kv) := by unfold NodupKeys; infer_instance

/-- Splitting with no budget left returns everything as one field. -/
lemma pySplitGo_zero (v : List Char) : ∀ acc, pySplitGo 0 acc v = [acc.reverse ++ v] := by
  induction v with
  | nil => intro acc; simp [pySplitGo]
  | cons c cs ih =>
    intro acc
    by_cases hc : c = ' '
    · subst hc; simp [pySplitGo]
    · simp [pySplitGo, hc, ih]

/-- Unfolding step of pySplitGo on a non-space character. -/
lemma pySplitGo_nsp (fuel : Nat) (acc : List Char) (c : Char) (cs : List Char) (h : c ≠ ' ') :
    pySplitGo fuel acc (c :: cs) = pySplitGo fuel (c :: acc) cs := by
  simp [pySplitGo, h]

/-- Unfolding step of pySplitGo on a space with budget remaining. -/
lemma pySplitGo_sp (m : Nat) (acc cs : List Char) :
    pySplitGo (m + 1) acc (' ' :: cs) = acc.reverse :: pySplitGo m [] cs := by
  simp [pySplitGo]

/-- With one split left, a space-free chunk before a space becomes one field. -/
lemma pySplitGo_one : ∀ (k : List Char), (∀ c ∈ k, c ≠ ' ') → ∀ (acc v : List Char),
    pySplitGo 1 acc (k ++ ' ' :: v) = [acc.reverse ++ k, v] := by
  intro k
  induction k with
  | nil => intro _ acc v; simp [pySplitGo, pySplitGo_zero]
  | cons c cs ih =>
    intro hk acc v
    have ihcs := ih (fun x hx => hk x (List.mem_cons_of_mem c hx)) (c :: acc) v
    rw [List.cons_append, pySplitGo_nsp _ _ _ _ (hk c (List.mem_cons_self c cs)), ihcs]
    simp

/-- Splitting a well-formed stripped record line yields exactly three fields. -/
lemma split_good_line (k v : List Char) (hk : ∀ c ∈ k, c ≠ ' ') :
    pySplit2 (SETsp ++ k ++ ' ' :: v) = [SETtok, k, v] := by
  have hform : SETsp ++ k ++ ' ' :: v = 'S' :: 'E' :: 'T' :: ' ' :: (k ++ ' ' :: v) := by
    simp [SETsp]
  rw [pySplit2, hform, pySplitGo_nsp _ _ _ _ (by decide), pySplitGo_nsp _ _ _ _ (by decide),
    pySplitGo_nsp _ _ _ _ (by decide)]
  rw [show (2 : Nat) = 1 + 1 from rfl, pySplitGo_sp, pySplitGo_one k hk [] v]
  simp [SETtok]

/-- Universal-newline translation leaves a CR-free head character alone. -/
lemma normNl_cons (c : Char) (t : List Char) (hc : c ≠ '\r') :
    normNl (c :: t) = c :: normNl t := by
  cases t with
  | nil => simp [normNl, hc]
  | cons d t2 => simp [normNl, hc]

/-- Universal-newline translation passes over a CR-free block. -/
lemma normNl_append : ∀ (l : List Char), (∀ c ∈ l, c ≠ '\r') → ∀ r,
    normNl (l ++ r) = l ++ normNl r := by
  intro l
  induction l with
  | nil => intro _ r; simp
  | cons c cs ih =>
    intro h r
    rw [List.cons_append, normNl_cons c _ (h c (List.mem_cons_self c cs)),
      ih (fun x hx => h x (List.mem_cons_of_mem c hx)) r]
    rfl

/-- Universal-newline translation is the identity on CR-free content. -/
lemma normNl_noCR (l : List Char) (h : ∀ c ∈ l, c ≠ '\r') : normNl l = l := by
  have := normNl_append l h []
  simpa [normNl] using this

/-- Reading one newline-terminated line. -/
lemma splitLinesGo_body : ∀ (body : List Char), (∀ c ∈ body, c ≠ '\n') →
    ∀ (acc rest : List Char),
    splitLinesGo acc (body ++ '\n' :: rest) =
      (acc.reverse ++ body ++ ['\n']) :: splitLinesGo [] rest := by
  intro body
  induction body with
  | nil => intro _ acc rest; simp [splitLinesGo]
  | cons c cs ih =>
    intro h acc rest
    rw [List.cons_append, splitLinesGo, if_neg (h c (List.mem_cons_self c cs)),
      ih (fun x hx => h x (List.mem_cons_of_mem c hx)) (c :: acc) rest]
    simp

/-- Splitting the empty content yields no lines. -/
lemma splitLinesGo_nil : splitLinesGo [] [] = [] := by simp [splitLinesGo]

/-- A list is a Boolean prefix of itself followed by anything. -/
lemma listPrefixOf_append (p r : List Char) : listPrefixOf p (p ++ r) = true := by
  induction p with
  | nil => simp [listPrefixOf]
  | cons a as ih => simp [listPrefixOf, ih]

/-- Stripping ignores a single trailing whitespace character. -/
lemma pyStrip_append_ws (l : List Char) (c : Char) (hc : isPyWs c = true) :
    pyStrip (l ++ [c]) = pyStrip l := by
  simp [pyStrip, List.dropWhile_cons, hc]

/-- Content that neither starts nor ends in whitespace strips to itself. -/
lemma pyStrip_noWs (l : List Char) (hne : l ≠ [])
    (hhead : isPyWs (l.headD 'x') = false)
    (hlast : isPyWs (l.reverse.headD 'x') = false) : pyStrip l = l := by
  obtain ⟨a, t, rfl⟩ : ∃ a t, l = a :: t := by
    cases l with
    | nil => exact absurd rfl hne
    | cons a t => exact ⟨a, t, rfl⟩
  obtain ⟨b, w, hrev⟩ : ∃ b w, (a :: t).reverse = b :: w := by
    cases hr : (a :: t).reverse with
    | nil => exact absurd (by simpa using congrArg List.reverse hr) (List.cons_ne_nil a t)
    | cons b w => exact ⟨b, w, rfl⟩
  rw [hrev] at hlast
  simp only [List.headD_cons] at hhead hlast
  have h1 : List.dropWhile isPyWs ((a :: t).reverse) = (a :: t).reverse := by
    rw [hrev, List.dropWhile_cons, hlast]
    simp
  rw [pyStrip, h1, List.reverse_reverse, List.dropWhile_cons, hhead]
  simp

/-- A nonempty list reversed is a cons. -/
lemma exists_rev_cons (v : List Char) (h : v ≠ []) : ∃ b w, v.reverse = b :: w := by
  cases hr : v.reverse with
  | nil => exact absurd (by simpa using congrArg List.reverse hr) h
  | cons b w => exact ⟨b, w, rfl⟩

/-- Stripping a serialized record removes exactly the trailing newline. -/
lemma strip_serRecord (k v : List Char) (hv : GoodVal v) :
    pyStrip (serRecord k v) = SETsp ++ k ++ ' ' :: v := by
  obtain ⟨hne, hnl, hlast⟩ := hv
  obtain ⟨b, w, hrev⟩ := exists_rev_cons v hne
  have hser : serRecord k v = (SETsp ++ k ++ ' ' :: v) ++ ['\n'] := by simp [serRecord]
  rw [hser, pyStrip_append_ws _ '\n' (by decide)]
  apply pyStrip_noWs
  · simp [SETsp]
  · have hh : (SETsp ++ k ++ ' ' :: v).headD 'x' = 'S' := by simp [SETsp]
    rw [hh]; decide
  · have h2 : (SETsp ++ k ++ ' ' :: v).reverse.headD 'x' = b := by
      rw [show SETsp ++ k ++ ' ' :: v = (SETsp ++ k ++ [' ']) ++ v by simp,
        List.reverse_append, hrev]
      simp
    rw [h2]
    rw [hrev] at hlast
    simpa using hlast

/-- A serialized good record parses back to itself in kv_store.py load_data. -/
lemma parseLine_ser (k v : List Char) (hk : GoodKey k) (hv : GoodVal v) :
    parseLine (serRecord k v) = some (k, v) := by
  have hksp : ∀ c ∈ k, c ≠ ' ' := fun c hc => (hk.2.2 c hc).1
  unfold parseLine
  rw [strip_serRecord k v hv, split_good_line k v hksp]
  simp

/-- One serialized good record advances kv_store.py replay by one insertion. -/
lemma load_data_lines_ser_step (k v : List Char) (ls : List (List Char)) (kv : Table)
    (hk : GoodKey k) (hv : GoodVal v) :
    load_data_lines (serRecord k v :: ls) kv = load_data_lines ls (set_in_memory kv k v) := by
  simp only [load_data_lines, parseLine_ser k v hk hv]

/-- A line kv_store.py load_data cannot parse is skipped. -/
lemma load_data_lines_skip (l : List Char) (ls : List (List Char)) (kv : Table)
    (h : parseLine l = none) :
    load_data_lines (l :: ls) kv = load_data_lines ls kv := by
  simp only [load_data_lines, h]

/-- One serialized good record advances kvstore.py replay by one insertion. -/
lemma load_log_lines_ser_step (k v : List Char) (ls : List (List Char)) (kv : Table)
    (hk : GoodKey k) (hv : GoodVal v) :
    load_log_lines (serRecord k v :: ls) kv = load_log_lines ls (set_in_memory kv k v) := by
  have hksp : ∀ c ∈ k, c ≠ ' ' := fun c hc => (hk.2.2 c hc).1
  have hstrip : pyStrip (serRecord k v) = SETsp ++ (k ++ ' ' :: v) := by
    rw [strip_serRecord k v hv, List.append_assoc]
  have hsplit : pySplit2 (SETsp ++ (k ++ ' ' :: v)) = [SETtok, k, v] := by
    rw [← List.append_assoc]; exact split_good_line k v hksp
  have hpre : listPrefixOf SETsp (SETsp ++ (k ++ ' ' :: v)) = true := listPrefixOf_append _ _
  simp only [load_log_lines, hstrip, hpre, if_true, hsplit]

/-- A line without the SET-space prefix after strip is skipped by kvstore.py replay. -/
lemma load_log_lines_skip (l : List Char) (ls : List (List Char)) (kv : Table)
    (h : listPrefixOf SETsp (pyStrip l) = false) :
    load_log_lines (l :: ls) kv = load_log_lines ls kv := by
  simp only [load_log_lines, h]
  simp

/-- The characters of a good serialized record: no carriage return anywhere. -/
lemma serRecord_noCR (k v : List Char) (hk : GoodKey k) (hv : GoodVal v) :
    ∀ c ∈ serRecord k v, c ≠ '\r' := by
  intro c hc
  rw [serRecord] at hc
  rcases List.mem_append.mp hc with h1 | h2
  · rcases List.mem_append.mp h1 with ha | hb
    · intro hceq; subst hceq; revert ha; decide
    · exact (hk.2.2 c hb).2.2
  · rcases List.mem_cons.mp h2 with hsp | hX
    · subst hsp; decide
    · rcases List.mem_append.mp hX with hv2 | hnl
      · exact (hv.2.1 c hv2).2
      · have hcn : c = '\n' := List.mem_singleton.mp hnl
        subst hcn; decide

/-- The body of a good serialized record (newline excluded) has no newline. -/
lemma serBody_noNl (k v : List Char) (hk : GoodKey k) (hv : GoodVal v) :
    ∀ c ∈ SETsp ++ k ++ ' ' :: v, c ≠ '\n' := by
  intro c hc
  rcases List.mem_append.mp hc with h1 | h2
  · rcases List.mem_append.mp h1 with ha | hb
    · intro hceq; subst hceq; revert ha; decide
    · exact (hk.2.2 c hb).2.1
  · rcases List.mem_cons.mp h2 with hsp | hv2
    · subst hsp; decide
    · exact (hv.2.1 c hv2).1

/-- A concatenation of good serialized records has no carriage return. -/
lemma serAll_noCR : ∀ (ops : List (List Char × List Char)),
    (∀ p ∈ ops, GoodKey p.1 ∧ GoodVal p.2) → ∀ c ∈ serAll ops, c ≠ '\r' := by
  intro ops
  induction ops with
  | nil => intro _ c hc; simp [serAll] at hc
  | cons p t ih =>
    intro h c hc
    obtain ⟨k, v⟩ := p
    have hg := h (k, v) (List.mem_cons_self _ _)
    rw [serAll, List.mem_append] at hc
    rcases hc with hc | hc
    · exact serRecord_noCR k v hg.1 hg.2 c hc
    · exact ih (fun q hq => h q (List.mem_cons_of_mem _ hq)) c hc

/-- Splitting a concatenation of good serialized records recovers the lines. -/
lemma splitLinesGo_serAll : ∀ (ops : List (List Char × List Char)),
    (∀ p ∈ ops, GoodKey p.1 ∧ GoodVal p.2) →
    splitLinesGo [] (serAll ops) = ops.map fun p => serRecord p.1 p.2 := by
  intro ops
  induction ops with
  | nil => intro _; simp [serAll, splitLinesGo]
  | cons p t ih =>
    intro h
    obtain ⟨k, v⟩ := p
    have hg := h (k, v) (List.mem_cons_self _ _)
    have hb := serBody_noNl k v hg.1 hg.2
    have hform : serAll ((k, v) :: t) = (SETsp ++ k ++ ' ' :: v) ++ '\n' :: serAll t := by
      simp [serAll, serRecord]
    rw [hform, splitLinesGo_body _ hb [] _, ih (fun q hq => h q (List.mem_cons_of_mem _ hq))]
    simp [serRecord]

/-- The lines of a log file written by a sequence of good sets. -/
lemma splitLines_serAll (ops : List (List Char × List Char))
    (h : ∀ p ∈ ops, GoodKey p.1 ∧ GoodVal p.2) :
    splitLines (serAll ops) = ops.map fun p => serRecord p.1 p.2 := by
  rw [splitLines, normNl_noCR _ (serAll_noCR ops h)]
  exact splitLinesGo_serAll ops h

/-- kv_store.py replay of serialized good records is the fold of insertions. -/
lemma load_data_lines_map : ∀ (ops : List (List Char × List Char)),
    (∀ p ∈ ops, GoodKey p.1 ∧ GoodVal p.2) → ∀ kv,
    load_data_lines (ops.map fun p => serRecord p.1 p.2) kv = applyWrites ops kv := by
  intro ops
  induction ops with
  | nil => intro _ kv; simp [load_data_lines, applyWrites]
  | cons p t ih =>
    intro h kv
    obtain ⟨k, v⟩ := p
    have hg := h (k, v) (List.mem_cons_self _ _)
    rw [List.map_cons, load_data_lines_ser_step k v _ kv hg.1 hg.2,
      ih (fun q hq => h q (List.mem_cons_of_mem _ hq))]
    rfl

/-- kvstore.py replay of serialized good records is the same fold and never aborts. -/
lemma load_log_lines_map : ∀ (ops : List (List Char × List Char)),
    (∀ p ∈ ops, GoodKey p.1 ∧ GoodVal p.2) → ∀ kv,
    load_log_lines (ops.map fun p => serRecord p.1 p.2) kv = (applyWrites ops kv, false) := by
  intro ops
  induction ops with
  | nil => intro _ kv; simp [load_log_lines, applyWrites]
  | cons p t ih =>
    intro h kv
    obtain ⟨k, v⟩ := p
    have hg := h (k, v) (List.mem_cons_self _ _)
    rw [List.map_cons, load_log_lines_ser_step k v _ kv hg.1 hg.2,
      ih (fun q hq => h q (List.mem_cons_of_mem _ hq))]
    rfl

/-- Unfolding set_in_memory on a cons. -/
lemma set_in_memory_cons (k2 v2 : List Char) (rest : Table) (k v : List Char) :
    set_in_memory ((k2, v2) :: rest) k v =
      if k2 = k then (k, v) :: rest else (k2, v2) :: set_in_memory rest k v := rfl

/-- Unfolding set_in_memory on nil. -/
lemma set_in_memory_nil (k v : List Char) : set_in_memory [] k v = [(k, v)] := rfl

/-- Keys of a cons table. -/
lemma keysOf_cons (k v : List Char) (rest : Table) :
    keysOf ((k, v) :: rest) = k :: keysOf rest := rfl

/-- Forward lookup after an update-or-append. -/
lemma scanLookup_insert : ∀ (kv : Table) (k v key : List Char),
    scanLookup (set_in_memory kv k v) key =
      if k = key then some v else scanLookup kv key := by
  intro kv k v key
  induction kv with
  | nil => by_cases h : k = key <;> simp [set_in_memory, scanLookup, h]
  | cons p rest ih =>
    obtain ⟨k2, v2⟩ := p
    by_cases h2 : k2 = k
    · subst h2
      by_cases hkey : k2 = key <;> simp [set_in_memory, scanLookup, hkey]
    · by_cases hkey : k = key
      · subst hkey
        simp [set_in_memory, scanLookup, h2, ih]
      · by_cases hkey2 : k2 = key
        · subst hkey2
          simp [set_in_memory, scanLookup, h2, hkey, ih]
        · simp [set_in_memory, scanLookup, h2, hkey, hkey2, ih]

/-- Forward lookup over a fold of insertions reads off the last write. -/
lemma scanLookup_applyWrites : ∀ (ops : List (List Char × List Char)) (kv : Table)
    (key : List Char),
    scanLookup (applyWrites ops kv) key =
      match lastWrite ops key with
      | some w => some w
      | none => scanLookup kv key := by
  intro ops
  induction ops with
  | nil => intro kv key; simp [applyWrites, lastWrite]
  | cons p t ih =>
    intro kv key
    obtain ⟨k, v⟩ := p
    rw [applyWrites, ih (set_in_memory kv k v) key, lastWrite]
    cases hlw : lastWrite t key with
    | some w => simp
    | none => by_cases hk : k = key <;> simp [scanLookup_insert, hk]

/-- Keys present after an update-or-append come from the inserted key or the old table. -/
lemma mem_keysOf_insert : ∀ (kv : Table) (k v x : List Char),
    x ∈ keysOf (set_in_memory kv k v) → x = k ∨ x ∈ keysOf kv := by
  intro kv k v x
  induction kv with
  | nil =>
    intro h
    left
    simpa [set_in_memory, keysOf] using h
  | cons p rest ih =>
    obtain ⟨k2, v2⟩ := p
    intro h
    by_cases h2 : k2 = k
    · subst h2
      rw [set_in_memory_cons, if_pos rfl, keysOf_cons] at h
      rcases List.mem_cons.mp h with h | h
      · exact Or.inl h
      · exact Or.inr (by rw [keysOf_cons]; exact List.mem_cons_of_mem _ h)
    · rw [set_in_memory_cons, if_neg h2, keysOf_cons] at h
      rcases List.mem_cons.mp h with h | h
      · exact Or.inr (by rw [h, keysOf_cons]; exact List.mem_cons_self _ _)
      · rcases ih h with h3 | h3
        · exact Or.inl h3
        · exact Or.inr (by rw [keysOf_cons]; exact List.mem_cons_of_mem _ h3)

/-- Update-or-append preserves the uniqueness invariant. -/
lemma nodupKeys_insert : ∀ (kv : Table) (k v : List Char),
    NodupKeys kv → NodupKeys (set_in_memory kv k v) := by
  intro kv k v
  induction kv with
  | nil => intro _; simp [NodupKeys, set_in_memory, keysOf]
  | cons p rest ih =>
    obtain ⟨k2, v2⟩ := p
    intro h
    rw [NodupKeys, keysOf_cons, List.nodup_cons] at h
    obtain ⟨hnotin, hrest⟩ := h
    by_cases h2 : k2 = k
    · subst h2
      rw [set_in_memory_cons, if_pos rfl, NodupKeys, keysOf_cons, List.nodup_cons]
      exact ⟨hnotin, hrest⟩
    · rw [set_in_memory_cons, if_neg h2, NodupKeys, keysOf_cons, List.nodup_cons]
      refine ⟨?_, ih hrest⟩
      intro hmem
      rcases mem_keysOf_insert rest k v k2 hmem with h3 | h3
      · exact h2 h3
      · exact hnotin h3

/-- Folding insertions preserves the uniqueness invariant. -/
lemma nodupKeys_applyWrites : ∀ (ops : List (List Char × List Char)) (kv : Table),
    NodupKeys kv → NodupKeys (applyWrites ops kv) := by
  intro ops
  induction ops with
  | nil => intro kv h; exact h
  | cons p t ih =>
    intro kv h
    obtain ⟨k, v⟩ := p
    exact ih _ (nodupKeys_insert kv k v h)

/-- kv_store.py replay preserves the uniqueness invariant. -/
lemma nodupKeys_load_data_lines : ∀ (ls : List (List Char)) (kv : Table),
    NodupKeys kv → NodupKeys (load_data_lines ls kv) := by
  intro ls
  induction ls with
  | nil => intro kv h; exact h
  | cons l t ih =>
    intro kv h
    cases hp : parseLine l with
    | some p =>
      obtain ⟨k, v⟩ := p
      rw [load_data_lines, hp]
      exact ih _ (nodupKeys_insert kv k v h)
    | none =>
      rw [load_data_lines, hp]
      exact ih _ h

/-- Scanning past a block that misses the key. -/
lemma scanLookup_append_none : ∀ (a b : Table) (key : List Char),
    scanLookup a key = none → scanLookup (a ++ b) key = scanLookup b key := by
  intro a
  induction a with
  | nil => intro b key _; rfl
  | cons p rest ih =>
    intro b key h
    obtain ⟨k, v⟩ := p
    by_cases hk : k = key
    · rw [scanLookup, if_pos hk] at h; cases h
    · rw [scanLookup, if_neg hk] at h
      rw [List.cons_append, scanLookup, if_neg hk]
      exact ih b key h

/-- A hit in the first block is the overall answer. -/
lemma scanLookup_append_some : ∀ (a b : Table) (key w : List Char),
    scanLookup a key = some w → scanLookup (a ++ b) key = some w := by
  intro a
  induction a with
  | nil => intro b key w h; cases h
  | cons p rest ih =>
    intro b key w h
    obtain ⟨k, v⟩ := p
    by_cases hk : k = key
    · rw [scanLookup, if_pos hk] at h
      rw [List.cons_append, scanLookup, if_pos hk]
      exact h
    · rw [scanLookup, if_neg hk] at h
      rw [List.cons_append, scanLookup, if_neg hk]
      exact ih b key w h

/-- A key absent from the key list is not found. -/
lemma scanLookup_none_of_notMem : ∀ (kv : Table) (key : List Char),
    key ∉ keysOf kv → scanLookup kv key = none := by
  intro kv
  induction kv with
  | nil => intro key _; rfl
  | cons p rest ih =>
    intro key h
    obtain ⟨k, v⟩ := p
    rw [keysOf_cons, List.mem_cons] at h
    push_neg at h
    rw [scanLookup, if_neg (fun hk => h.1 hk.symm)]
    exact ih key h.2

/-- With unique keys the reversed scan of get_from_memory agrees with dict lookup. -/
lemma get_eq_fwd : ∀ (kv : Table) (key : List Char), NodupKeys kv →
    get_from_memory kv key = dictGet kv key := by
  intro kv
  induction kv with
  | nil => intro key _; rfl
  | cons p rest ih =>
    intro key h
    obtain ⟨k, v⟩ := p
    rw [NodupKeys, keysOf_cons, List.nodup_cons] at h
    obtain ⟨hnotin, hrest⟩ := h
    rw [get_from_memory, List.reverse_cons]
    by_cases hk : k = key
    · subst hk
      have hnone : scanLookup rest.reverse k = none := by
        apply scanLookup_none_of_notMem
        intro hmem
        apply hnotin
        have hrev : keysOf rest.reverse = (keysOf rest).reverse := by simp [keysOf]
        rw [hrev, List.mem_reverse] at hmem
        exact hmem
      rw [scanLookup_append_none _ _ _ hnone]
      simp [scanLookup, dictGet]
    · have hih := ih key hrest
      rw [get_from_memory] at hih
      cases hscan : scanLookup rest.reverse key with
      | some w =>
        rw [scanLookup_append_some _ _ _ _ hscan]
        rw [hscan] at hih
        simp only [dictGet, scanLookup] at hih ⊢
        simp [hk]
        exact hih
      | none =>
        rw [scanLookup_append_none _ _ _ hscan]
        rw [hscan] at hih
        simp only [dictGet, scanLookup] at hih ⊢
        simp [hk]
        exact hih

/-- The last write for a key names a pair of the operation sequence. -/
lemma lastWrite_mem : ∀ (ops : List (List Char × List Char)) (key v : List Char),
    lastWrite ops key = some v → (key, v) ∈ ops := by
  intro ops
  induction ops with
  | nil => intro key v h; cases h
  | cons p t ih =>
    intro key v h
    obtain ⟨k, w⟩ := p
    rw [lastWrite] at h
    cases hlw : lastWrite t key with
    | some u =>
      rw [hlw] at h
      have hu : u = v := by simpa using h
      subst hu
      exact List.mem_cons_of_mem _ (ih key u hlw)
    | none =>
      rw [hlw] at h
      by_cases hk : k = key
      · simp only [if_pos hk] at h
        have hw : w = v := by simpa using h
        subst hw
        subst hk
        exact List.mem_cons_self _ _
      · simp only [if_neg hk] at h
        cases h

/-- Validation succeeds on good keys. -/
lemma goodKey_valid (k : List Char) (h : GoodKey k) : validate_key k = true := by
  rw [validate_key, Bool.and_eq_true]
  refine ⟨?_, decide_eq_true h.2.1⟩
  cases hh : pyStrip k with
  | nil => exact absurd hh h.1
  | cons a t => simp

/-- The kv_store.py main loop over successful sets: table and file in closed form. -/
lemma runSets_eq : ∀ (ops : List (List Char × List Char)) (kv : Table) (f : List Char),
    runSets ops (kv, f) = (applyWrites ops kv, f ++ serAll ops) := by
  intro ops
  induction ops with
  | nil => intro kv f; simp [runSets, applyWrites, serAll]
  | cons p t ih =>
    intro kv f
    obtain ⟨k, v⟩ := p
    rw [runSets, ih]
    simp [applyWrites, serAll, append_to_log]

/-- One successful valid kvstore.py set: state in closed form. -/
lemma kvSet_ok (kv : Table) (f k v : List Char) (hk : validate_key k = true) :
    kvSet kv f k v true = (none, set_in_memory kv k v, f ++ serRecord k v) := by
  simp [kvSet, hk]

/-- The kvstore.py store over successful valid sets: table and file in closed form. -/
lemma runKvStore_eq : ∀ (ops : List (List Char × List Char)),
    (∀ p ∈ ops, validate_key p.1 = true) → ∀ (kv : Table) (f : List Char),
    runKvStore ops (kv, f) = (applyWrites ops kv, f ++ serAll ops) := by
  intro ops
  induction ops with
  | nil => intro _ kv f; simp [runKvStore, applyWrites, serAll]
  | cons p t ih =>
    intro h kv f
    obtain ⟨k, v⟩ := p
    have hk := h (k, v) (List.mem_cons_self _ _)
    rw [runKvStore, kvSet_ok kv f k v hk]
    rw [show (none (α := KVError), set_in_memory kv k v, f ++ serRecord k v).2 =
      (set_in_memory kv k v, f ++ serRecord k v) from rfl]
    rw [ih (fun q hq => h q (List.mem_cons_of_mem _ hq))]
    simp [applyWrites, serAll]

/-- The empty table has unique keys. -/
lemma nodupKeys_nil : NodupKeys ([] : Table) := by simp [NodupKeys, keysOf]

/-- Every list is a Boolean prefix of itself. -/
lemma listPrefixOf_self (l : List Char) : listPrefixOf l l = true := by
  have h := listPrefixOf_append l []
  simpa using h

/-- Dict lookup over a fold of insertions from the empty table is the last write. -/
lemma dictGet_applyWrites (ops : List (List Char × List Char)) (key : List Char) :
    dictGet (applyWrites ops []) key = lastWrite ops key := by
  rw [dictGet, scanLookup_applyWrites]
  cases lastWrite ops key <;> rfl

/-- Reverse-scan lookup over a fold of insertions from the empty table is the last write. -/
lemma get_from_memory_applyWrites (ops : List (List Char × List Char)) (key : List Char) :
    get_from_memory (applyWrites ops []) key = lastWrite ops key := by
  rw [get_eq_fwd _ _ (nodupKeys_applyWrites ops [] nodupKeys_nil), dictGet_applyWrites]

/-- C1: in kvstore.py KeyValueStore.set the in-memory dict is updated before the
durable append, so when the append raises IOError the call fails but the Table
already reflects the attempted write; the kv_store.py main loop appends before
set_in_memory and leaves memory unchanged on failure. This refutes the claim
that the Table is left exactly as it was on append failure. -/
theorem c1_set_memory_outruns_disk :
    (kvSet [] [] (strL "a") (strL "1") false).1 = some KVError.ioError ∧
    (kvSet [] [] (strL "a") (strL "1") false).2.1 = [(strL "a", strL "1")] ∧
    mainSetStep [] [] (strL "a") (strL "1") false = (false, [], []) := by decide

/-- C2 counterexample: one malformed line of the insufficient-fields kind between
two well-formed SET lines makes kvstore.py load_log abort: replay keeps the first
record only, the second key reads as not found, contradicting the claim that both
well-formed records are recovered. -/
theorem c2_counterexample :
    (load_log (strL "SET a 1\nSET b\nSET c 3\n")).1 = [(strL "a", strL "1")] ∧
    (load_log (strL "SET a 1\nSET b\nSET c 3\n")).2 = true ∧
    kvGet (load_log (strL "SET a 1\nSET b\nSET c 3\n")).1 (strL "c") = Except.ok none := by
  decide

/-- C2 (amended): with one malformed line between two good SET lines,
kv_store.py load_data always recovers both records; kvstore.py load_log
recovers both provided the malformed line does not carry the SET-space prefix
after stripping (a prefixed short line instead aborts replay). -/
theorem c2_corruption_tolerance
    (k1 v1 k2 v2 midBody : List Char)
    (hk1 : GoodKey k1) (hv1 : GoodVal v1) (hk2 : GoodKey k2) (hv2 : GoodVal v2)
    (hne : k1 ≠ k2)
    (hmid : ∀ c ∈ midBody, c ≠ '\n' ∧ c ≠ '\r')
    (hbad : parseLine (midBody ++ ['\n']) = none) :
    (get_from_memory
        (load_data (serRecord k1 v1 ++ (midBody ++ ['\n']) ++ serRecord k2 v2) []) k1
        = some v1 ∧
      get_from_memory
        (load_data (serRecord k1 v1 ++ (midBody ++ ['\n']) ++ serRecord k2 v2) []) k2
        = some v2) ∧
    (listPrefixOf SETsp (pyStrip (midBody ++ ['\n'])) = false →
      kvGet (load_log (serRecord k1 v1 ++ (midBody ++ ['\n']) ++ serRecord k2 v2)).1 k1
        = Except.ok (some v1) ∧
      kvGet (load_log (serRecord k1 v1 ++ (midBody ++ ['\n']) ++ serRecord k2 v2)).1 k2
        = Except.ok (some v2)) := by
  have hnoCR : ∀ c ∈ serRecord k1 v1 ++ (midBody ++ ['\n']) ++ serRecord k2 v2, c ≠ '\r' := by
    intro c hc
    rcases List.mem_append.mp hc with h1 | h2
    · rcases List.mem_append.mp h1 with ha | hb
      · exact serRecord_noCR k1 v1 hk1 hv1 c ha
      · rcases List.mem_append.mp hb with hm | hn
        · exact (hmid c hm).2
        · have hcn : c = '\n' := List.mem_singleton.mp hn
          subst hcn; decide
    · exact serRecord_noCR k2 v2 hk2 hv2 c h2
  have hshape : serRecord k1 v1 ++ (midBody ++ ['\n']) ++ serRecord k2 v2 =
      (SETsp ++ k1 ++ ' ' :: v1) ++ '\n' ::
        (midBody ++ '\n' :: ((SETsp ++ k2 ++ ' ' :: v2) ++ '\n' :: [])) := by
    simp [serRecord]
  have hlines : splitLines (serRecord k1 v1 ++ (midBody ++ ['\n']) ++ serRecord k2 v2) =
      [serRecord k1 v1, midBody ++ ['\n'], serRecord k2 v2] := by
    rw [splitLines, normNl_noCR _ hnoCR, hshape,
      splitLinesGo_body _ (serBody_noNl k1 v1 hk1 hv1) [] _,
      splitLinesGo_body _ (fun c hc => (hmid c hc).1) [] _,
      splitLinesGo_body _ (serBody_noNl k2 v2 hk2 hv2) [] _,
      splitLinesGo_nil]
    simp [serRecord]
  have htab : load_data_lines [serRecord k1 v1, midBody ++ ['\n'], serRecord k2 v2] [] =
      [(k1, v1), (k2, v2)] := by
    rw [show [serRecord k1 v1, midBody ++ ['\n'], serRecord k2 v2] =
        serRecord k1 v1 :: [midBody ++ ['\n'], serRecord k2 v2] from rfl,
      load_data_lines_ser_step k1 v1 _ _ hk1 hv1,
      load_data_lines_skip _ _ _ hbad,
      load_data_lines_ser_step k2 v2 _ _ hk2 hv2]
    simp [load_data_lines, set_in_memory, hne]
  constructor
  · rw [load_data, hlines, htab]
    constructor
    · simp [get_from_memory, scanLookup, Ne.symm hne]
    · simp [get_from_memory, scanLookup]
  · intro hpre
    have hlog : (load_log (serRecord k1 v1 ++ (midBody ++ ['\n']) ++ serRecord k2 v2)).1 =
        [(k1, v1), (k2, v2)] := by
      rw [load_log, hlines,
        show [serRecord k1 v1, midBody ++ ['\n'], serRecord k2 v2] =
          serRecord k1 v1 :: [midBody ++ ['\n'], serRecord k2 v2] from rfl,
        load_log_lines_ser_step k1 v1 _ _ hk1 hv1,
        load_log_lines_skip _ _ _ hpre,
        load_log_lines_ser_step k2 v2 _ _ hk2 hv2]
      simp [load_log_lines, set_in_memory, hne]
    rw [hlog]
    constructor
    · rw [kvGet, if_pos (goodKey_valid k1 hk1)]
      simp [dictGet, scanLookup]
    · rw [kvGet, if_pos (goodKey_valid k2 hk2)]
      simp [dictGet, scanLookup, hne]

/-- C2 witness: a wrong-prefix junk line between two good records, both recovered. -/
theorem c2_witness :
    parseLine (strL "junk" ++ ['\n']) = none ∧
    get_from_memory
      (load_data (serRecord (strL "a") (strL "1") ++ (strL "junk" ++ ['\n']) ++
        serRecord (strL "c") (strL "3")) []) (strL "a") = some (strL "1") ∧
    kvGet (load_log (serRecord (strL "a") (strL "1") ++ (strL "junk" ++ ['\n']) ++
        serRecord (strL "c") (strL "3"))).1 (strL "c") = Except.ok (some (strL "3")) :=
  ⟨by decide,
    (c2_corruption_tolerance (strL "a") (strL "1") (strL "c") (strL "3") (strL "junk")
      (by decide) (by decide) (by decide) (by decide) (by decide) (by decide) (by decide)).1.1,
    ((c2_corruption_tolerance (strL "a") (strL "1") (strL "c") (strL "3") (strL "junk")
      (by decide) (by decide) (by decide) (by decide) (by decide) (by decide) (by decide)).2
      (by decide)).2⟩

/-- C3 counterexample: a set of the empty value round-trips to not-found in both
implementations: the line SET-k-space-newline strips to two fields, which
kv_store.py load_data skips and on which kvstore.py load_log aborts; the claim
demands the empty string back. -/
theorem c3_counterexample :
    lastWrite [(strL "k", [])] (strL "k") = some [] ∧
    get_from_memory (load_data (runSets [(strL "k", [])] ([], [])).2 []) (strL "k") = none ∧
    kvGet (load_log (runKvStore [(strL "k", [])] ([], [])).2).1 (strL "k")
      = Except.ok none := by decide

/-- C3 (amended): for any sequence of successful sets whose keys are valid,
space-free and CR-LF-free and whose values are CR-LF-free, nonempty and not
ending in whitespace, a fresh replay of the written log yields the last-set
value for every key that was set, in both implementations. -/
theorem c3_round_trip (ops : List (List Char × List Char))
    (hgood : ∀ p ∈ ops, GoodKey p.1 ∧ GoodVal p.2)
    (key v : List Char) (hlast : lastWrite ops key = some v) :
    get_from_memory (load_data (runSets ops ([], [])).2 []) key = some v ∧
    kvGet (load_log (runKvStore ops ([], [])).2).1 key = Except.ok (some v) := by
  have hvalid : ∀ p ∈ ops, validate_key p.1 = true := fun p hp => goodKey_valid p.1 (hgood p hp).1
  have hfile1 : (runSets ops ([], [])).2 = serAll ops := by rw [runSets_eq]; simp
  have hfile2 : (runKvStore ops ([], [])).2 = serAll ops := by rw [runKvStore_eq ops hvalid]; simp
  have hkeygood : GoodKey key := (hgood (key, v) (lastWrite_mem ops key v hlast)).1
  constructor
  · rw [hfile1, load_data, splitLines_serAll ops hgood, load_data_lines_map ops hgood [],
      get_from_memory_applyWrites, hlast]
  · rw [hfile2, load_log, splitLines_serAll ops hgood, load_log_lines_map ops hgood []]
    rw [show (applyWrites ops [], false).1 = applyWrites ops [] from rfl]
    rw [kvGet, if_pos (goodKey_valid key hkeygood), dictGet_applyWrites, hlast]

/-- C3 witness: one good set, read back after replay in both implementations. -/
theorem c3_witness :
    (∀ p ∈ [(strL "a", strL "1")], GoodKey p.1 ∧ GoodVal p.2) ∧
    get_from_memory (load_data (runSets [(strL "a", strL "1")] ([], [])).2 []) (strL "a")
      = some (strL "1") ∧
    kvGet (load_log (runKvStore [(strL "a", strL "1")] ([], [])).2).1 (strL "a")
      = Except.ok (some (strL "1")) :=
  ⟨by decide,
    (c3_round_trip [(strL "a", strL "1")] (by decide) (strL "a") (strL "1") (by decide)).1,
    (c3_round_trip [(strL "a", strL "1")] (by decide) (strL "a") (strL "1") (by decide)).2⟩

/-- C4: setting the same valid key twice reads back the second value (in the
kvstore.py dict and in the kv_store.py list alike), and the log file extends by
exactly the two serialized records in write order, first value first. -/
theorem c4_last_write_wins (kv : Table) (f key v1 v2 : List Char)
    (hval : validate_key key = true) (hnd : NodupKeys kv) :
    kvGet (kvSet (kvSet kv f key v1 true).2.1 (kvSet kv f key v1 true).2.2 key v2 true).2.1 key
      = Except.ok (some v2) ∧
    (kvSet (kvSet kv f key v1 true).2.1 (kvSet kv f key v1 true).2.2 key v2 true).2.2
      = f ++ serRecord key v1 ++ serRecord key v2 ∧
    get_from_memory (set_in_memory (set_in_memory kv key v1) key v2) key = some v2 := by
  have s1a : (kvSet kv f key v1 true).2.1 = set_in_memory kv key v1 := by
    rw [kvSet_ok kv f key v1 hval]
  have s1b : (kvSet kv f key v1 true).2.2 = f ++ serRecord key v1 := by
    rw [kvSet_ok kv f key v1 hval]
  rw [s1a, s1b]
  have s2a : (kvSet (set_in_memory kv key v1) (f ++ serRecord key v1) key v2 true).2.1
      = set_in_memory (set_in_memory kv key v1) key v2 := by
    rw [kvSet_ok _ _ _ _ hval]
  have s2b : (kvSet (set_in_memory kv key v1) (f ++ serRecord key v1) key v2 true).2.2
      = f ++ serRecord key v1 ++ serRecord key v2 := by
    rw [kvSet_ok _ _ _ _ hval]
  have hnd2 : NodupKeys (set_in_memory (set_in_memory kv key v1) key v2) :=
    nodupKeys_insert _ _ _ (nodupKeys_insert _ _ _ hnd)
  refine ⟨?_, s2b, ?_⟩
  · rw [s2a, kvGet, if_pos hval, dictGet, scanLookup_insert]
    simp
  · rw [get_eq_fwd _ _ hnd2, dictGet, scanLookup_insert]
    simp

/-- C4 witness: set a to 1 then a to 2 from the empty store. -/
theorem c4_witness :
    validate_key (strL "a") = true ∧
    kvGet (kvSet (kvSet [] [] (strL "a") (strL "1") true).2.1
        (kvSet [] [] (strL "a") (strL "1") true).2.2 (strL "a") (strL "2") true).2.1 (strL "a")
      = Except.ok (some (strL "2")) ∧
    (kvSet (kvSet [] [] (strL "a") (strL "1") true).2.1
        (kvSet [] [] (strL "a") (strL "1") true).2.2 (strL "a") (strL "2") true).2.2
      = [] ++ serRecord (strL "a") (strL "1") ++ serRecord (strL "a") (strL "2") :=
  ⟨by decide,
    (c4_last_write_wins [] [] (strL "a") (strL "1") (strL "2") (by decide) (by decide)).1,
    (c4_last_write_wins [] [] (strL "a") (strL "1") (strL "2") (by decide) (by decide)).2.1⟩

/-- C5: a valid key never set reads as the none sentinel in both implementations;
after setting it to the empty string it reads as some empty string, and the
sentinel differs from every stored value. -/
theorem c5_not_found_sentinel (ops : List (List Char × List Char)) (key : List Char)
    (hval : validate_key key = true) (hnone : lastWrite ops key = none) :
    kvGet (applyWrites ops []) key = Except.ok none ∧
    get_from_memory (applyWrites ops []) key = none ∧
    kvGet (set_in_memory (applyWrites ops []) key []) key = Except.ok (some []) ∧
    get_from_memory (set_in_memory (applyWrites ops []) key []) key = some [] ∧
    ∀ w : List Char, (none : Option (List Char)) ≠ some w := by
  have hnd : NodupKeys (applyWrites ops []) := nodupKeys_applyWrites ops [] nodupKeys_nil
  refine ⟨?_, ?_, ?_, ?_, fun w h => by cases h⟩
  · rw [kvGet, if_pos hval, dictGet_applyWrites, hnone]
  · rw [get_from_memory_applyWrites, hnone]
  · rw [kvGet, if_pos hval, dictGet, scanLookup_insert]
    simp
  · rw [get_eq_fwd _ _ (nodupKeys_insert _ _ _ hnd), dictGet, scanLookup_insert]
    simp

/-- C5 witness: after setting a, the key b reads as the sentinel, and after
setting b to the empty string it reads as some empty string. -/
theorem c5_witness :
    validate_key (strL "b") = true ∧ lastWrite [(strL "a", strL "1")] (strL "b") = none ∧
    kvGet (applyWrites [(strL "a", strL "1")] []) (strL "b") = Except.ok none ∧
    get_from_memory (set_in_memory (applyWrites [(strL "a", strL "1")] []) (strL "b") [])
      (strL "b") = some [] :=
  ⟨by decide, by decide,
    (c5_not_found_sentinel [(strL "a", strL "1")] (strL "b") (by decide) (by decide)).1,
    (c5_not_found_sentinel [(strL "a", strL "1")] (strL "b") (by decide) (by decide)).2.2.2.1⟩

/-- C6 counterexample: kv_store.py has no key validation: setting the empty key
succeeds and mutates the table, and getting it returns the stored value, instead
of failing with InvalidArgument and leaving the table unchanged as claimed. -/
theorem c6_counterexample :
    set_in_memory [] [] (strL "x") = [([], strL "x")] ∧
    get_from_memory [([], strL "x")] [] = some (strL "x") := by decide

/-- C6 (amended): kvstore.py rejects the empty key in both set and get with
InvalidArgument, leaving table and file unchanged; kv_store.py performs no
validation and stores and retrieves the empty key without error. -/
theorem c6_empty_key_validation (kv : Table) (f v : List Char) (ok : Bool) :
    kvSet kv f [] v ok = (some KVError.invalidArgument, kv, f) ∧
    kvGet kv [] = Except.error KVError.invalidArgument ∧
    set_in_memory [] [] v = [([], v)] ∧
    get_from_memory [([], v)] [] = some v := by
  have hv : validate_key [] = false := by decide
  refine ⟨?_, ?_, rfl, ?_⟩
  · rw [kvSet, hv]
    simp
  · rw [kvGet, hv]
    simp
  · simp [get_from_memory, scanLookup]

/-- C7 counterexample: loading a log with an aborting line resets the file, so a
second independent load returns a different table, contradicting the claim that
two loads of the same file always agree. -/
theorem c7_counterexample :
    load_log (load_log_file (strL "SET a 1\nSET b\n")) ≠ load_log (strL "SET a 1\nSET b\n") := by
  decide

/-- C7 (amended): when replay does not abort, load_log leaves the file exactly as
it was and a second independent load returns the identical table; kv_store.py
load_data never writes the file, so its replay is always repeatable. -/
theorem c7_idempotent_replay (c : List Char) (h : (load_log c).2 = false) :
    load_log_file c = c ∧ load_log (load_log_file c) = load_log c := by
  have hf : load_log_file c = c := by
    rw [load_log_file, h]
    simp
  exact ⟨hf, by rw [hf]⟩

/-- C7 witness: a clean one-record log loads identically twice. -/
theorem c7_witness :
    (load_log (strL "SET a 1\n")).2 = false ∧
    load_log (load_log_file (strL "SET a 1\n")) = load_log (strL "SET a 1\n") :=
  ⟨by decide, (c7_idempotent_replay (strL "SET a 1\n") (by decide)).2⟩

/-- C8 counterexample: a load that hits an aborting line truncates the log file:
the old content is no longer a prefix of the file afterwards, contradicting the
claim that every store operation preserves existing content as a prefix. -/
theorem c8_counterexample :
    listPrefixOf (strL "SET a\n") (load_log_file (strL "SET a\n")) = false := by decide

/-- C8 (amended): set always leaves the previous file content as a prefix, on
success, on append failure, and on invalid keys alike; get leaves table and file
untouched; and a load whose replay does not abort leaves the file exactly as it
was. Only an aborting load rewrites the file. -/
theorem c8_append_only :
    (∀ (kv : Table) (f k v : List Char) (ok : Bool),
      listPrefixOf f (kvSet kv f k v ok).2.2 = true) ∧
    (∀ (s : Table × List Char) (k : List Char), kvStep (Cmd.getCmd k) s = s) ∧
    (∀ c : List Char, (load_log c).2 = false → load_log_file c = c) := by
  refine ⟨?_, fun s k => rfl, ?_⟩
  · intro kv f k v ok
    rw [kvSet]
    by_cases hval : validate_key k = true
    · rw [if_pos hval]
      cases ok
      · simp [listPrefixOf_self]
      · simp [listPrefixOf_append]
    · rw [if_neg hval]
      simp [listPrefixOf_self]
  · intro c h
    rw [load_log_file, h]
    simp

/-- C8 witness: a clean load keeps the file, and an append extends it. -/
theorem c8_witness :
    (load_log (strL "SET a 1\n")).2 = false ∧
    load_log_file (strL "SET a 1\n") = strL "SET a 1\n" ∧
    listPrefixOf (strL "x") (kvSet [] (strL "x") (strL "a") (strL "1") true).2.2 = true :=
  ⟨by decide, c8_append_only.2.2 (strL "SET a 1\n") (by decide),
    c8_append_only.1 [] (strL "x") (strL "a") (strL "1") true⟩

/-- C9: the uniqueness invariant is preserved by set_in_memory, holds after
load_data from the empty store, and makes the reversed scan of get_from_memory
agree with the forward scan used for dict lookup. -/
theorem c9_unique_keys :
    (∀ (kv : Table) (k v : List Char), NodupKeys kv → NodupKeys (set_in_memory kv k v)) ∧
    (∀ content : List Char, NodupKeys (load_data content [])) ∧
    (∀ (kv : Table) (key : List Char), NodupKeys kv → get_from_memory kv key = dictGet kv key) :=
  ⟨nodupKeys_insert,
    fun content => nodupKeys_load_data_lines (splitLines content) [] nodupKeys_nil,
    get_eq_fwd⟩

/-- C9 witness: concrete instances of all three conjuncts. -/
theorem c9_witness :
    NodupKeys (set_in_memory [(strL "a", strL "1")] (strL "b") (strL "2")) ∧
    NodupKeys (load_data (strL "SET a 1\nSET a 2\n") []) ∧
    get_from_memory [(strL "a", strL "1")] (strL "a")
      = dictGet [(strL "a", strL "1")] (strL "a") :=
  ⟨c9_unique_keys.1 [(strL "a", strL "1")] (strL "b") (strL "2") (by decide),
    c9_unique_keys.2.1 (strL "SET a 1\nSET a 2\n"),
    c9_unique_keys.2.2 [(strL "a", strL "1")] (strL "a") (by decide)⟩

/-- C10: get is read-only: dropping every get command from any command sequence
leaves the final table and file unchanged, so interleaved gets affect no later
get or load. -/
theorem c10_get_read_only : ∀ (cmds : List Cmd) (s : Table × List Char),
    runCmds cmds s = runCmds (cmds.filter isSetCmd) s := by
  intro cmds
  induction cmds with
  | nil => intro s; rfl
  | cons c t ih =>
    intro s
    cases c with
    | setCmd k v ok =>
      rw [runCmds, show (Cmd.setCmd k v ok :: t).filter isSetCmd
          = Cmd.setCmd k v ok :: t.filter isSetCmd by simp [List.filter_cons, isSetCmd],
        runCmds]
      exact ih _
    | getCmd k =>
      rw [runCmds, show (Cmd.getCmd k :: t).filter isSetCmd
          = t.filter isSetCmd by simp [List.filter_cons, isSetCmd]]
      exact ih s

end KV
